import Mathlib

/-!
Verification of the polynomial-regression engine of
`src/backend/src/utils/regression.ts` (freelanceflow).

JavaScript numbers are modelled by exact rationals (`ℚ`).  Where JavaScript
division by zero yields `Infinity`/`NaN`, the rational model uses Lean's
convention `q / 0 = 0`; theorems about degenerate inputs therefore only state
facts that are independent of that convention (for example, that a function
returns a plain value rather than signalling an error), and the division-by-
zero behaviour itself is discussed in the accompanying results.
-/

namespace FreelanceFlow

/-- The `DataPoint` interface of regression.ts: a sample of the revenue
series. -/
structure DataPoint where
  x : ℚ
  y : ℚ
deriving DecidableEq, Repr

/-- Truncating dot product of two lists, `Σ u[k] * v[k]` over the indices the
two lists share.  Used to state what the matrix loops of regression.ts
compute. -/
def dot (u v : List ℚ) : ℚ := (List.zipWith (· * ·) u v).sum

/-- `transpose` from regression.ts: `result[j][i] = matrix[i][j]` for
`j < matrix[0].length`.  (On an empty matrix JavaScript faults reading
`matrix[0].length`; the embedding totalises that case to `[]`.) -/
def transpose (matrix : List (List ℚ)) : List (List ℚ) :=
  (List.range (matrix.headD []).length).map (fun j => matrix.map (fun row => row.getD j 0))

/-- `matrixMultiply` from regression.ts:
`result[i][j] = Σ_{k < A[0].length} A[i][k] * B[k][j]` with
`j < B[0].length`. -/
def matrixMultiply (A B : List (List ℚ)) : List (List ℚ) :=
  A.map (fun row => (List.range (B.headD []).length).map (fun j =>
    ((List.range (A.headD []).length).map
      (fun k => row.getD k 0 * (B.getD k []).getD j 0)).sum))

/-- `matrixVectorMultiply` from regression.ts:
`result[i] = Σ_{j < v.length} A[i][j] * v[j]`. -/
def matrixVectorMultiply (A : List (List ℚ)) (v : List ℚ) : List ℚ :=
  A.map (fun row => ((List.range v.length).map (fun j => row.getD j 0 * v.getD j 0)).sum)

/-- The partial-pivot search of `gaussianElimination`: scan the remaining rows
keeping the first row whose column-`i` entry has strictly larger absolute
value than the current best; returns the (relative) index of that row together
with the row itself.  Mirrors the `maxRow` loop of regression.ts. -/
def pivotAux (i : ℕ) : List (List ℚ) → ℕ → ℕ × List ℚ → ℕ × List ℚ
  | [], _, best => best
  | row :: rest, k, best =>
    if |row.getD i 0| > |best.2.getD i 0| then pivotAux i rest (k + 1) (k, row)
    else pivotAux i rest (k + 1) best

/-- One elimination update of `gaussianElimination`: for `j` from `i` to the
end of the row, `row[j] -= factor * pivotRow[j]` where
`factor = row[i] / pivotRow[i]`; entries before column `i` are not touched. -/
def elimRow (i : ℕ) (pivotRow row : List ℚ) : List ℚ :=
  row.take i ++
    List.zipWith (fun a b => a - row.getD i 0 / pivotRow.getD i 0 * b)
      (row.drop i) (pivotRow.drop i)

/-- The forward-elimination phase of `gaussianElimination`, processing column
`i` of the remaining rows: select the partial pivot, swap it to the front
(the displaced former front row takes the pivot's old slot, as the JavaScript
destructuring swap does), and eliminate column `i` from every later row.
The JavaScript loop `for (i = 0; i < n; i++)` runs once per row of the
matrix; `fuel` counts the remaining iterations and is always instantiated
with the row count `n`. -/
def forwardElimAux : ℕ → ℕ → List (List ℚ) → List (List ℚ)
  | _, _, [] => []
  | _, 0, _ :: _ => []
  | i, fuel + 1, r :: rs =>
    let best := pivotAux i rs 1 (0, r)
    let rest := ((r :: rs).set best.1 r).tail
    best.2 :: forwardElimAux (i + 1) fuel (rest.map (elimRow i best.2))

/-- The back-substitution phase of `gaussianElimination`:
`x[i] = (aug[i][n] - Σ_{j=i+1}^{n-1} aug[i][j] * x[j]) / aug[i][i]`,
computed bottom-up. -/
def backSubFrom (n : ℕ) : ℕ → List (List ℚ) → List ℚ
  | _, [] => []
  | i, row :: rest =>
    let xs := backSubFrom n (i + 1) rest
    (row.getD n 0 - dot (row.drop (i + 1)) xs) / row.getD i 0 :: xs

/-- `gaussianElimination` from regression.ts: augment, forward-eliminate with
partial pivoting, back-substitute.  Its JavaScript type has no error channel:
it always returns a plain coefficient array. -/
def gaussianElimination (A : List (List ℚ)) (b : List ℚ) : List ℚ :=
  backSubFrom A.length 0
    (forwardElimAux 0 A.length (List.zipWith (fun row bi => row ++ [bi]) A b))

/-- `polynomialRegression` from regression.ts: clamp the degree when there are
too few points, build the design matrix of powers, and solve the normal
equations by Gaussian elimination. -/
def polynomialRegression (data : List DataPoint) (degree : ℕ := 2) : List ℚ :=
  let n := data.length
  let deg := if n < degree + 1 then max 1 (n - 1) else degree
  let X := data.map (fun p => (List.range (deg + 1)).map (fun j => p.x ^ j))
  let Y := data.map (fun p => p.y)
  let XT := transpose X
  let XTX := matrixMultiply XT X
  let XTY := matrixVectorMultiply XT Y
  gaussianElimination XTX XTY

/-- `predict` from regression.ts: accumulate `coefficients[i] * x^i` and clamp
the result to `max(0, y)`. -/
def predict (x : ℚ) (coefficients : List ℚ) : ℚ :=
  max 0 (coefficients.enum.foldl (fun acc ia => acc + ia.2 * x ^ ia.1) 0)

/-- `generateProjections` from regression.ts: fit, read `last_x` from the
final sample (defaulting to `0` on an empty series, as `?.x || 0` does), and
emit `futurePoints` predicted samples at `last_x + 1, …`. -/
def generateProjections (historicalData : List DataPoint) (futurePoints : ℕ)
    (degree : ℕ := 2) : List DataPoint :=
  let coefficients := polynomialRegression historicalData degree
  let lastX := ((historicalData.getLast?).map DataPoint.x).getD 0
  (List.range futurePoints).map (fun i =>
    { x := lastX + ((i + 1 : ℕ) : ℚ)
      y := predict (lastX + ((i + 1 : ℕ) : ℚ)) coefficients })

/-- The mean of the observed `y` values, as computed by `calculateR2`. -/
def yMean (data : List DataPoint) : ℚ :=
  (data.foldl (fun sum p => sum + p.y) 0) / (data.length : ℚ)

/-- The `ssTotal` accumulator of `calculateR2`. -/
def ssTotal (data : List DataPoint) : ℚ :=
  data.foldl (fun s p => s + (p.y - yMean data) ^ 2) 0

/-- The `ssResidual` accumulator of `calculateR2`; the residual uses `predict`
and hence the non-negativity clamp. -/
def ssResidual (data : List DataPoint) (coefficients : List ℚ) : ℚ :=
  data.foldl (fun s p => s + (p.y - predict p.x coefficients) ^ 2) 0

/-- `calculateR2` from regression.ts: `1 - ssResidual / ssTotal`.  The source
computes both accumulators in a single loop over `data`; the two folds here
are that same computation split per accumulator. -/
def calculateR2 (data : List DataPoint) (coefficients : List ℚ) : ℚ :=
  1 - ssResidual data coefficients / ssTotal data

/-! ### Basic lemmas about the list helpers -/

theorem dot_nil_left (v : List ℚ) : dot [] v = 0 := rfl

theorem dot_nil_right (u : List ℚ) : dot u [] = 0 := by cases u <;> rfl

theorem dot_cons (a b : ℚ) (u v : List ℚ) :
    dot (a :: u) (b :: v) = a * b + dot u v := by
  simp [dot]

theorem foldl_add_map {α : Type*} (f : α → ℚ) (l : List α) (a : ℚ) :
    l.foldl (fun s p => s + f p) a = a + (l.map f).sum := by
  induction l generalizing a with
  | nil => simp
  | cons p l ih => simp [ih, add_assoc]

/-- The polynomial value `Σ coefficients[i] · x^i`: the reference sum in the
spec's contract for `predict`. -/
def polyVal (coefficients : List ℚ) (x : ℚ) : ℚ :=
  ∑ i ∈ Finset.range coefficients.length, coefficients.getD i 0 * x ^ i

theorem enumFrom_poly_foldl (x : ℚ) (cs : List ℚ) (k : ℕ) (a : ℚ) :
    (cs.enumFrom k).foldl (fun acc ia => acc + ia.2 * x ^ ia.1) a
      = a + ∑ i ∈ Finset.range cs.length, cs.getD i 0 * x ^ (k + i) := by
  induction cs generalizing k a with
  | nil => simp
  | cons c cs ih =>
      rw [List.enumFrom_cons, List.foldl_cons, ih (k + 1) (a + c * x ^ k),
        List.length_cons, Finset.sum_range_succ']
      simp only [List.getD_cons_succ, List.getD_cons_zero, Nat.add_zero]
      have hsum : ∀ i ∈ Finset.range cs.length,
          cs.getD i 0 * x ^ (k + 1 + i) = cs.getD i 0 * x ^ (k + (i + 1)) := by
        intro i _
        rw [show k + 1 + i = k + (i + 1) by omega]
      rw [Finset.sum_congr rfl hsum]
      ring

theorem predict_eq_max_polyVal (x : ℚ) (cs : List ℚ) :
    predict x cs = max 0 (polyVal cs x) := by
  have h : cs.enum = cs.enumFrom 0 := rfl
  rw [predict, h, enumFrom_poly_foldl, polyVal]
  simp

/-- C2: for every `x` and coefficient vector, `predict` returns exactly the
polynomial evaluation `Σ coefficients[i] · x^i` clamped to `max(0, ·)`, and
the returned value is therefore non-negative. -/
theorem predict_clamps_polyVal_and_nonneg (x : ℚ) (coefficients : List ℚ) :
    predict x coefficients = max 0 (polyVal coefficients x) ∧
      0 ≤ predict x coefficients := by
  refine ⟨predict_eq_max_polyVal x coefficients, ?_⟩
  rw [predict_eq_max_polyVal]
  exact le_max_left 0 _

/-- C10: `predict` on an empty coefficient vector returns exactly `0` (the
empty sum clamped at zero), for every input `x`. -/
theorem predict_nil_eq_zero (x : ℚ) : predict x [] = 0 := rfl

/-- C9: `polynomialRegression` is a pure function of the series and the
degree: equal inputs give equal coefficient vectors (the embedding has no
state a call could read or mutate). -/
theorem polynomialRegression_deterministic (data₁ data₂ : List DataPoint)
    (deg₁ deg₂ : ℕ) (hd : data₁ = data₂) (hg : deg₁ = deg₂) :
    polynomialRegression data₁ deg₁ = polynomialRegression data₂ deg₂ := by
  rw [hd, hg]

/-- Witness for C9 at a concrete series and degree. -/
theorem polynomialRegression_deterministic_witness :
    ([⟨0, 1⟩] : List DataPoint) = [⟨0, 1⟩] ∧ (1 : ℕ) = 1 ∧
      polynomialRegression [⟨0, 1⟩] 1 = polynomialRegression [⟨0, 1⟩] 1 :=
  ⟨rfl, rfl, polynomialRegression_deterministic [⟨0, 1⟩] [⟨0, 1⟩] 1 1 rfl rfl⟩

theorem predict_nonneg (x : ℚ) (cs : List ℚ) : 0 ≤ predict x cs := by
  rw [predict_eq_max_polyVal]
  exact le_max_left 0 _

/-- C3: on a non-empty series, `generateProjections` returns exactly `count`
samples whose `x` values are `last_x + 1, …, last_x + count` (strictly
increasing, contiguous with the series), and every projected `y` is
non-negative. -/
theorem generateProjections_contiguous (data : List DataPoint) (count deg : ℕ)
    (hne : data ≠ []) (hcount : 1 ≤ count) :
    (generateProjections data count deg).length = count ∧
      (generateProjections data count deg).map DataPoint.x
        = (List.range count).map (fun i => (data.getLast hne).x + ((i + 1 : ℕ) : ℚ)) ∧
      ((generateProjections data count deg).map DataPoint.x).Pairwise (· < ·) ∧
      ∀ p ∈ generateProjections data count deg, 0 ≤ p.y := by
  have hlast : ((data.getLast?).map DataPoint.x).getD 0 = (data.getLast hne).x := by
    rw [List.getLast?_eq_getLast data hne]
    rfl
  have hmap : (generateProjections data count deg).map DataPoint.x
      = (List.range count).map (fun i => (data.getLast hne).x + ((i + 1 : ℕ) : ℚ)) := by
    simp only [generateProjections, hlast, List.map_map]
    rfl
  refine ⟨by simp [generateProjections], hmap, ?_, ?_⟩
  · rw [hmap, List.pairwise_map]
    refine (List.pairwise_lt_range count).imp ?_
    intro a b hab
    have : ((a : ℚ)) < (b : ℚ) := (Nat.cast_lt (α := ℚ)).mpr hab
    push_cast
    linarith
  · intro p hp
    simp only [generateProjections, List.mem_map, List.mem_range] at hp
    obtain ⟨i, _, rfl⟩ := hp
    exact predict_nonneg _ _

/-- Witness for C3 at the one-point series `[(0, 1)]` with `count = 2`. -/
theorem generateProjections_contiguous_witness :
    (([⟨0, 1⟩] : List DataPoint) ≠ [] ∧ (1 : ℕ) ≤ 2) ∧
      (generateProjections [⟨0, 1⟩] 2 1).length = 2 ∧
      (generateProjections [⟨0, 1⟩] 2 1).map DataPoint.x = [1, 2] ∧
      ∀ p ∈ generateProjections [⟨0, 1⟩] 2 1, 0 ≤ p.y := by
  have hne : ([⟨0, 1⟩] : List DataPoint) ≠ [] := by simp
  have h := generateProjections_contiguous [⟨0, 1⟩] 2 1 hne (by norm_num)
  refine ⟨⟨hne, by norm_num⟩, h.1, ?_, h.2.2.2⟩
  rw [h.2.1]
  norm_num [List.range_succ]

/-- C8: `calculateR2` returns `1 - SS_residual / SS_total`, where `ȳ` is the
mean of the observed `y` values, `SS_total = Σ (y_i - ȳ)²` and
`SS_residual = Σ (y_i - predict(x_i, coefficients))²`; the residuals use the
same clamped evaluation that `predict` performs. -/
theorem calculateR2_eq_one_sub_ratio (data : List DataPoint)
    (coefficients : List ℚ) (hne : data ≠ []) :
    calculateR2 data coefficients =
      1 - ((data.map (fun p => (p.y - predict p.x coefficients) ^ 2)).sum)
        / ((data.map (fun p =>
            (p.y - (data.map (fun q => q.y)).sum / (data.length : ℚ)) ^ 2)).sum) := by
  rw [calculateR2, ssResidual, ssTotal, yMean, foldl_add_map, foldl_add_map, foldl_add_map]
  simp

/-- Witness for C8 at a concrete two-point series. -/
theorem calculateR2_eq_one_sub_ratio_witness :
    (([⟨0, 1⟩, ⟨1, 3⟩] : List DataPoint) ≠ []) ∧
      calculateR2 [⟨0, 1⟩, ⟨1, 3⟩] [2] =
        1 - ((([⟨0, 1⟩, ⟨1, 3⟩] : List DataPoint).map
              (fun p => (p.y - predict p.x [2]) ^ 2)).sum)
          / ((([⟨0, 1⟩, ⟨1, 3⟩] : List DataPoint).map (fun p =>
              (p.y - (([⟨0, 1⟩, ⟨1, 3⟩] : List DataPoint).map (fun q => q.y)).sum
                / (([⟨0, 1⟩, ⟨1, 3⟩] : List DataPoint).length : ℚ)) ^ 2)).sum) :=
  ⟨by simp, calculateR2_eq_one_sub_ratio [⟨0, 1⟩, ⟨1, 3⟩] [2] (by simp)⟩

/-! ### Shape lemmas for the matrix helpers -/

theorem transpose_length (m : List (List ℚ)) :
    (transpose m).length = (m.headD []).length := by
  simp [transpose]

theorem matrixMultiply_length (A B : List (List ℚ)) :
    (matrixMultiply A B).length = A.length := by
  simp [matrixMultiply]

theorem matrixVectorMultiply_length (A : List (List ℚ)) (v : List ℚ) :
    (matrixVectorMultiply A v).length = A.length := by
  simp [matrixVectorMultiply]

theorem backSubFrom_length (n : ℕ) :
    ∀ (i : ℕ) (R : List (List ℚ)), (backSubFrom n i R).length = R.length
  | _, [] => rfl
  | i, _ :: rest => by
      simp only [backSubFrom, List.length_cons, backSubFrom_length n (i + 1) rest]

theorem forwardElimAux_length :
    ∀ (i fuel : ℕ) (R : List (List ℚ)),
      (forwardElimAux i fuel R).length = min fuel R.length
  | _, _, [] => by simp [forwardElimAux]
  | _, 0, _ :: _ => by simp [forwardElimAux]
  | i, fuel + 1, r :: rs => by
      rw [forwardElimAux]
      simp only [List.length_cons,
        forwardElimAux_length (i + 1) fuel _, List.length_map, List.length_tail,
        List.length_set]
      omega

theorem gaussianElimination_length (A : List (List ℚ)) (b : List ℚ)
    (hb : b.length = A.length) :
    (gaussianElimination A b).length = A.length := by
  rw [gaussianElimination, backSubFrom_length, forwardElimAux_length]
  simp [hb]

theorem polynomialRegression_length (data : List DataPoint) (degree : ℕ)
    (hne : data ≠ []) :
    (polynomialRegression data degree).length
      = (if data.length < degree + 1 then max 1 (data.length - 1) else degree) + 1 := by
  obtain ⟨p, rest, rfl⟩ := List.exists_cons_of_ne_nil hne
  simp only [polynomialRegression]
  rw [gaussianElimination_length]
  · rw [matrixMultiply_length, transpose_length]
    simp
  · rw [matrixVectorMultiply_length, matrixMultiply_length]

/-- C4 counterexample: the one-point series `[(5, 3)]` fitted with the
requested degree `2` yields a coefficient vector of length `2`, which is not
`≤ 1 = len(series)` as the claim asserts. -/
theorem polynomialRegression_length_counterexample :
    (polynomialRegression [⟨5, 3⟩] 2).length = 2 ∧
      ¬ (polynomialRegression [⟨5, 3⟩] 2).length ≤ 1 := by
  constructor
  · norm_num [polynomialRegression, transpose, matrixMultiply, matrixVectorMultiply,
      gaussianElimination, forwardElimAux, pivotAux, elimRow, backSubFrom, dot,
      List.range_succ]
  · intro h
    rw [polynomialRegression_length [⟨5, 3⟩] 2 (by simp)] at h
    simp at h

/-- C4 (amended): on a non-empty series of length `n < degree + 1`,
`polynomialRegression` does not fail: it fits with the reduced degree
`max(1, n-1)` and returns `max(1, n-1) + 1` coefficients; this is at most
`n` whenever `n ≥ 2` (a one-point series still yields two coefficients). -/
theorem polynomialRegression_degree_clamp (data : List DataPoint) (degree : ℕ)
    (hne : data ≠ []) (hlt : data.length < degree + 1) :
    (polynomialRegression data degree).length = max 1 (data.length - 1) + 1 ∧
      (2 ≤ data.length → (polynomialRegression data degree).length ≤ data.length) := by
  have h := polynomialRegression_length data degree hne
  rw [if_pos hlt] at h
  exact ⟨h, fun h2 => by rw [h]; omega⟩

/-- Witness for C4 (amended) at a two-point series with requested degree 5. -/
theorem polynomialRegression_degree_clamp_witness :
    (([⟨1, 1⟩, ⟨2, 2⟩] : List DataPoint) ≠ [] ∧
        ([⟨1, 1⟩, ⟨2, 2⟩] : List DataPoint).length < 5 + 1) ∧
      (polynomialRegression [⟨1, 1⟩, ⟨2, 2⟩] 5).length
          = max 1 (([⟨1, 1⟩, ⟨2, 2⟩] : List DataPoint).length - 1) + 1 ∧
      (2 ≤ ([⟨1, 1⟩, ⟨2, 2⟩] : List DataPoint).length →
        (polynomialRegression [⟨1, 1⟩, ⟨2, 2⟩] 5).length
          ≤ ([⟨1, 1⟩, ⟨2, 2⟩] : List DataPoint).length) :=
  ⟨⟨by simp, by simp⟩,
    polynomialRegression_degree_clamp [⟨1, 1⟩, ⟨2, 2⟩] 5 (by simp) (by simp)⟩

/-! ### Degenerate-input behaviour (claims C5, C6, C7) -/

/-- C5: on the duplicate-`x` series `[(1,0),(1,1)]` with degree 1 the
normal-equations matrix `XᵀX` is exactly the singular matrix `[[2,2],[2,2]]`,
yet `polynomialRegression` still returns a plain 2-entry coefficient vector
to its caller: no failure of any kind is surfaced.  (In JavaScript the
zero-pivot division fills that vector with `NaN`; the rational model cannot
represent `NaN`, so this theorem states only the absence of an error
signal.) -/
theorem polynomialRegression_singular_returns_vector :
    matrixMultiply
        (transpose (([⟨1, 0⟩, ⟨1, 1⟩] : List DataPoint).map
          (fun p => (List.range 2).map (fun j => p.x ^ j))))
        (([⟨1, 0⟩, ⟨1, 1⟩] : List DataPoint).map
          (fun p => (List.range 2).map (fun j => p.x ^ j)))
      = [[2, 2], [2, 2]] ∧
    (polynomialRegression [⟨1, 0⟩, ⟨1, 1⟩] 1).length = 2 := by
  constructor
  · norm_num [transpose, matrixMultiply, List.range_succ]
  · norm_num [polynomialRegression, transpose, matrixMultiply, matrixVectorMultiply,
      gaussianElimination, forwardElimAux, pivotAux, elimRow, backSubFrom, dot,
      List.range_succ]

/-- C6: on the constant series `[(0,5),(1,5)]` with coefficients `[0]` the
`ssTotal` accumulator of `calculateR2` is exactly `0` while `ssResidual` is
`50`, so `calculateR2` reaches its final `1 - ssResidual / ssTotal` with an
unguarded division by zero (in JavaScript: `-Infinity`); no explicit
zero-variance handling exists in the code. -/
theorem calculateR2_zero_variance_unguarded :
    ssTotal [⟨0, 5⟩, ⟨1, 5⟩] = 0 ∧ ssResidual [⟨0, 5⟩, ⟨1, 5⟩] [0] = 50 := by
  norm_num [ssTotal, ssResidual, yMean, predict, List.enum, List.enumFrom]

/-- C7: called on the empty series, `generateProjections` does not reject the
call: in the embedding it silently defaults `last_x` to `0` (the `?.x || 0`
fallback) and produces projections anchored at `x = 0`, namely at
`x = 1, 2`. -/
theorem generateProjections_empty_not_rejected :
    (generateProjections [] 2 1).length = 2 ∧
      (generateProjections [] 2 1).map DataPoint.x = [1, 2] := by
  constructor
  · norm_num [generateProjections]
  · norm_num [generateProjections, predict, polynomialRegression, transpose,
      matrixMultiply, matrixVectorMultiply, gaussianElimination, forwardElimAux,
      pivotAux, elimRow, backSubFrom, dot, List.range_succ, List.enum, List.enumFrom]

/-- C1 counterexample: the series `[(0,0),(1,-1)]` has pairwise-distinct `x`
values and lies exactly on the degree-1 polynomial `y = -x` with
`d = 1 ≤ n - 1 = 1`.  The fit does recover the coefficients `[0, -1]`
exactly, but `calculateR2` returns `-1`, not `1.0`: the clamp inside
`predict` turns the fitted value at `(1, -1)` into `0`, leaving a nonzero
residual. -/
theorem exact_fit_counterexample :
    polynomialRegression [⟨0, 0⟩, ⟨1, -1⟩] 1 = [0, -1] ∧
      calculateR2 [⟨0, 0⟩, ⟨1, -1⟩] (polynomialRegression [⟨0, 0⟩, ⟨1, -1⟩] 1) = -1 ∧
      calculateR2 [⟨0, 0⟩, ⟨1, -1⟩] (polynomialRegression [⟨0, 0⟩, ⟨1, -1⟩] 1) ≠ 1 := by
  refine ⟨?_, ?_, ?_⟩
  · norm_num [polynomialRegression, transpose, matrixMultiply, matrixVectorMultiply,
      gaussianElimination, forwardElimAux, pivotAux, elimRow, backSubFrom, dot,
      List.range_succ]
  · norm_num [calculateR2, ssResidual, ssTotal, yMean, predict, List.enum,
      List.enumFrom, polynomialRegression, transpose, matrixMultiply,
      matrixVectorMultiply, gaussianElimination, forwardElimAux, pivotAux, elimRow,
      backSubFrom, dot, List.range_succ]
  · norm_num [calculateR2, ssResidual, ssTotal, yMean, predict, List.enum,
      List.enumFrom, polynomialRegression, transpose, matrixMultiply,
      matrixVectorMultiply, gaussianElimination, forwardElimAux, pivotAux, elimRow,
      backSubFrom, dot, List.range_succ]

/-! ### Dot-product toolkit for the Gaussian-elimination proof -/

theorem getD_eq_getElem0 (l : List ℚ) {k : ℕ} (h : k < l.length) :
    l.getD k 0 = l[k] :=
  List.getD_eq_getElem l 0 h

theorem dot_eq_sum_range (u v : List ℚ) :
    dot u v = ∑ k ∈ Finset.range (min u.length v.length), u.getD k 0 * v.getD k 0 := by
  induction u generalizing v with
  | nil => simp [dot]
  | cons a u ih =>
      cases v with
      | nil => simp [dot]
      | cons b v =>
          rw [dot_cons, ih, List.length_cons, List.length_cons, Nat.succ_min_succ,
            Finset.sum_range_succ']
          simp [add_comm]

theorem dot_sub_smul (c : ℚ) :
    ∀ (u v xs : List ℚ), u.length = v.length →
      dot (List.zipWith (fun a b => a - c * b) u v) xs = dot u xs - c * dot v xs
  | [], [], xs, _ => by simp [dot]
  | [], _ :: _, _, h => by simp at h
  | _ :: _, [], _, h => by simp at h
  | a :: u, b :: v, [], _ => by simp [dot]
  | a :: u, b :: v, x :: xs, h => by
      rw [List.zipWith_cons_cons, dot_cons, dot_cons, dot_cons,
        dot_sub_smul c u v xs (by simpa using h)]
      ring

theorem dot_sub_right :
    ∀ (u v w : List ℚ), v.length = w.length →
      dot u (List.zipWith (fun a b => a - b) v w) = dot u v - dot u w
  | u, [], [], _ => by simp [dot]
  | _, [], _ :: _, h => by simp at h
  | _, _ :: _, [], h => by simp at h
  | [], _ :: _, _ :: _, _ => by simp [dot]
  | a :: u, b :: v, c :: w, h => by
      rw [List.zipWith_cons_cons, dot_cons, dot_cons, dot_cons,
        dot_sub_right u v w (by simpa using h)]
      ring

theorem dot_set_right :
    ∀ (u xs : List ℚ) (i : ℕ) (t : ℚ), i < xs.length →
      dot u (xs.set i t) = dot u xs + u.getD i 0 * (t - xs.getD i 0)
  | [], xs, i, t, _ => by simp [dot]
  | a :: u, [], i, t, h => by simp at h
  | a :: u, x :: xs, 0, t, _ => by
      rw [List.set_cons_zero, dot_cons, dot_cons]
      simp only [List.getD_cons_zero]
      ring
  | a :: u, x :: xs, i + 1, t, h => by
      rw [List.set_cons_succ, dot_cons, dot_cons,
        dot_set_right u xs i t (by simpa using h)]
      simp only [List.getD_cons_succ]
      ring

theorem dot_replicate_zero_right : ∀ (u : List ℚ) (k : ℕ),
    dot u (List.replicate k 0) = 0
  | [], _ => by simp [dot]
  | _ :: _, 0 => by simp [dot]
  | a :: u, k + 1 => by
      rw [List.replicate_succ, dot_cons, dot_replicate_zero_right u k]
      ring

theorem dot_indicator : ∀ (u : List ℚ) (i k : ℕ),
    dot u (List.replicate i 0 ++ 1 :: List.replicate k 0) = u.getD i 0
  | [], i, k => by cases i <;> simp [dot]
  | a :: u, 0, k => by
      rw [List.replicate_zero, List.nil_append, dot_cons,
        dot_replicate_zero_right u _]
      simp
  | a :: u, i + 1, k => by
      rw [List.replicate_succ, List.cons_append, dot_cons, dot_indicator u i k]
      simp

theorem dot_append_left_of_le :
    ∀ (u w v : List ℚ), v.length ≤ u.length → dot (u ++ w) v = dot u v
  | u, w, [], _ => by simp [dot]
  | [], w, _ :: _, h => by simp at h
  | a :: u, w, b :: v, h => by
      rw [List.cons_append, dot_cons, dot_cons,
        dot_append_left_of_le u w v (by simpa using h)]

theorem dot_append_split :
    ∀ (A B xs : List ℚ),
      dot (A ++ B) xs = dot A (xs.take A.length) + dot B (xs.drop A.length)
  | [], B, xs => by simp [dot]
  | a :: A, B, [] => by simp [dot]
  | a :: A, B, x :: xs => by
      rw [List.cons_append, dot_cons, List.length_cons, List.take_succ_cons,
        List.drop_succ_cons, dot_cons, dot_append_split A B xs]
      ring

theorem dot_take_zero :
    ∀ (i : ℕ) (u w : List ℚ), (∀ j < i, u.getD j 0 = 0) → dot (u.take i) w = 0
  | 0, u, w, _ => by simp [dot]
  | i + 1, [], w, _ => by simp [dot]
  | i + 1, a :: u, [], _ => by simp [dot]
  | i + 1, a :: u, x :: w, hz => by
      rw [List.take_succ_cons, dot_cons,
        dot_take_zero i u w (fun j hj => hz (j + 1) (by omega))]
      have ha : a = 0 := hz 0 (by omega)
      rw [ha]
      ring

theorem dot_take_right_of_le :
    ∀ (u xs : List ℚ) (m : ℕ), u.length ≤ m → dot u (xs.take m) = dot u xs
  | [], xs, m, _ => by simp [dot]
  | a :: u, [], m, _ => by simp [dot]
  | a :: u, x :: xs, 0, h => by simp at h
  | a :: u, x :: xs, m + 1, h => by
      rw [List.take_succ_cons, dot_cons, dot_cons,
        dot_take_right_of_le u xs m (by simpa using h)]

theorem dot_take_drop (i : ℕ) (u xs : List ℚ) :
    dot u xs = dot (u.take i) (xs.take i) + dot (u.drop i) (xs.drop i) := by
  conv_lhs => rw [← List.take_append_drop i u]
  rw [dot_append_split]
  rcases le_or_lt i u.length with h | h
  · rw [List.length_take, min_eq_left h]
  · rw [List.length_take, min_eq_right h.le, List.drop_eq_nil_of_le h.le,
      dot_nil_left, dot_nil_left, List.take_of_length_le h.le,
      dot_take_right_of_le u xs u.length le_rfl, dot_take_right_of_le u xs i h.le]

/-! ### Lemmas about `elimRow` -/

theorem elimRow_length (i : ℕ) (pr row : List ℚ) (h : row.length = pr.length) :
    (elimRow i pr row).length = row.length := by
  simp only [elimRow, List.length_append, List.length_take, List.length_zipWith,
    List.length_drop, h]
  omega

theorem dot_elimRow (i : ℕ) (pr row : List ℚ) (hi : i ≤ row.length)
    (hlen : row.length = pr.length)
    (hrz : ∀ j < i, row.getD j 0 = 0) (hpz : ∀ j < i, pr.getD j 0 = 0)
    (xs : List ℚ) :
    dot (elimRow i pr row) xs
      = dot row xs - row.getD i 0 / pr.getD i 0 * dot pr xs := by
  have htake : (row.take i).length = i := by
    rw [List.length_take, min_eq_left hi]
  rw [elimRow, dot_append_split, htake, dot_take_zero i row _ hrz,
    dot_sub_smul _ _ _ _ (by simp [hlen]), dot_take_drop i row xs,
    dot_take_drop i pr xs, dot_take_zero i row _ hrz,
    dot_take_zero i pr _ hpz]
  ring

theorem elimRow_getD_lt (i : ℕ) (pr row : List ℚ) (hi : i ≤ row.length)
    {j : ℕ} (hj : j < i) :
    (elimRow i pr row).getD j 0 = row.getD j 0 := by
  have htake : (row.take i).length = i := by
    rw [List.length_take, min_eq_left hi]
  rw [elimRow, List.getD_append _ _ _ _ (by omega), getD_eq_getElem0 _ (by omega),
    List.getElem_take, ← getD_eq_getElem0 _ (by omega)]

theorem elimRow_getD_ge (i : ℕ) (pr row : List ℚ) {m : ℕ} (him : i ≤ m)
    (hm : m < row.length) (hlen : row.length = pr.length) :
    (elimRow i pr row).getD m 0
      = row.getD m 0 - row.getD i 0 / pr.getD i 0 * pr.getD m 0 := by
  have htake : (row.take i).length = i := by
    rw [List.length_take, min_eq_left (le_trans him hm.le)]
  have hz : m - i < (List.zipWith
      (fun a b => a - row.getD i 0 / pr.getD i 0 * b) (row.drop i)
      (pr.drop i)).length := by
    simp only [List.length_zipWith, List.length_drop, hlen]
    omega
  rw [elimRow, List.getD_append_right _ _ _ _ (by omega), htake,
    getD_eq_getElem0 _ hz, List.getElem_zipWith, List.getElem_drop,
    List.getElem_drop, ← getD_eq_getElem0 _ (by omega),
    ← getD_eq_getElem0 _ (by omega)]
  rw [show i + (m - i) = m by omega]

theorem elimRow_getD_pivot (i : ℕ) (pr row : List ℚ) (hi : i < row.length)
    (hlen : row.length = pr.length) (hpr : pr.getD i 0 ≠ 0) :
    (elimRow i pr row).getD i 0 = 0 := by
  rw [elimRow_getD_ge i pr row le_rfl hi hlen, div_mul_cancel₀ _ hpr, sub_self]

/-! ### Lemmas about the pivot search and the row swap -/

theorem pivotAux_max (i : ℕ) : ∀ (l : List (List ℚ)) (k : ℕ) (b : ℕ × List ℚ),
    |b.2.getD i 0| ≤ |(pivotAux i l k b).2.getD i 0| ∧
      ∀ row ∈ l, |row.getD i 0| ≤ |(pivotAux i l k b).2.getD i 0|
  | [], _, b => ⟨le_refl _, by simp⟩
  | row :: rest, k, b => by
      rw [pivotAux]
      split_ifs with h
      · have ih := pivotAux_max i rest (k + 1) (k, row)
        refine ⟨le_trans (le_of_lt h) ih.1, ?_⟩
        intro r hr
        rcases List.mem_cons.mp hr with rfl | hr
        · exact ih.1
        · exact ih.2 r hr
      · have ih := pivotAux_max i rest (k + 1) b
        push_neg at h
        refine ⟨ih.1, ?_⟩
        intro r hr
        rcases List.mem_cons.mp hr with rfl | hr
        · exact le_trans h ih.1
        · exact ih.2 r hr

theorem pivotAux_getD (i : ℕ) :
    ∀ (l : List (List ℚ)) (k : ℕ) (b : ℕ × List ℚ) (full : List (List ℚ)),
      b.1 < k → full.getD b.1 [] = b.2 →
      (∀ m < l.length, l.getD m [] = full.getD (k + m) []) →
      (pivotAux i l k b).1 < k + l.length ∧
        full.getD (pivotAux i l k b).1 [] = (pivotAux i l k b).2
  | [], k, b, full, hk, hb, _ => ⟨by simpa using hk, hb⟩
  | row :: rest, k, b, full, hk, hb, hl => by
      rw [pivotAux]
      have hhead : full.getD k [] = row := by
        have := hl 0 (by simp)
        simpa using this.symm
      have hshift : ∀ m < rest.length, rest.getD m [] = full.getD (k + 1 + m) [] := by
        intro m hm
        have := hl (m + 1) (by simp; omega)
        rw [List.getD_cons_succ] at this
        rw [this, show k + (m + 1) = k + 1 + m by omega]
      split_ifs with h
      · have ih := pivotAux_getD i rest (k + 1) (k, row) full (by omega) hhead hshift
        refine ⟨?_, ih.2⟩
        have hb1 := ih.1
        simp only [List.length_cons]
        omega
      · have ih := pivotAux_getD i rest (k + 1) b full (by omega) hb hshift
        refine ⟨?_, ih.2⟩
        have hb1 := ih.1
        simp only [List.length_cons]
        omega

theorem perm_cons_set : ∀ (l : List (List ℚ)) (p : ℕ) (x : List ℚ), p < l.length →
    (l.getD p [] :: l.set p x).Perm (x :: l)
  | [], p, x, h => by simp at h
  | a :: l, 0, x, _ => by
      rw [List.getD_cons_zero, List.set_cons_zero]
      exact List.Perm.swap x a l
  | a :: l, p + 1, x, h => by
      rw [List.getD_cons_succ, List.set_cons_succ]
      refine (List.Perm.swap _ _ _).trans ?_
      refine (List.Perm.cons a (perm_cons_set l p x (by simpa using h))).trans ?_
      exact List.Perm.swap _ _ _

theorem swap_cons_set (r : List ℚ) (rs : List (List ℚ)) (p : ℕ)
    (hp : p < (r :: rs).length) :
    ((r :: rs).getD p [] :: ((r :: rs).set p r).tail).Perm (r :: rs) := by
  cases p with
  | zero =>
      rw [List.getD_cons_zero, List.set_cons_zero, List.tail_cons]
  | succ q =>
      rw [List.getD_cons_succ, List.set_cons_succ, List.tail_cons]
      exact perm_cons_set rs q r (by simpa using hp)

/-! ### The triangular invariant and back substitution -/

/-- Upper-triangular structure produced by forward elimination: the row at
relative position `k` of `U` (absolute position `i + k`) has length `n + 1`,
zeros strictly before column `i + k`, and a non-zero pivot at column
`i + k`. -/
inductive Tri (n : ℕ) : ℕ → List (List ℚ) → Prop
  | nil (i : ℕ) : Tri n i []
  | cons (i : ℕ) (row : List ℚ) (rest : List (List ℚ)) :
      row.length = n + 1 → (∀ j < i, row.getD j 0 = 0) → row.getD i 0 ≠ 0 →
      Tri n (i + 1) rest → Tri n i (row :: rest)

theorem Tri.mem_length {n i : ℕ} {U : List (List ℚ)} (h : Tri n i U) :
    ∀ row ∈ U, row.length = n + 1 := by
  induction h with
  | nil => simp
  | cons i row rest hrowlen hz hnz htri ih =>
      intro r hr
      rcases List.mem_cons.mp hr with rfl | hr
      · exact hrowlen
      · exact ih r hr

theorem Tri.mem_zero {n : ℕ} {i : ℕ} {U : List (List ℚ)} (h : Tri n i U) :
    ∀ row ∈ U, ∀ j < i, row.getD j 0 = 0 := by
  induction h with
  | nil => simp
  | cons i row rest hrowlen hz hnz htri ih =>
      intro r hr j hj
      rcases List.mem_cons.mp hr with rfl | hr
      · exact hz j hj
      · exact ih r hr j (by omega)

theorem drop_eq_getD_cons {l : List ℚ} {i : ℕ} (h : i < l.length) :
    l.drop i = l.getD i 0 :: l.drop (i + 1) := by
  rw [List.drop_eq_getElem_cons h, getD_eq_getElem0 l h]

theorem backSub_solves (n : ℕ) : ∀ (U : List (List ℚ)) (i : ℕ), Tri n i U →
    U.length + i = n →
    (backSubFrom n i U).length = U.length ∧
      ∀ row ∈ U, dot (row.drop i) (backSubFrom n i U) = row.getD n 0
  | [], i, _, _ => ⟨rfl, by simp⟩
  | row :: rest, i, Tri.cons _ _ _ hrowlen hz hnz htri2, hlen => by
      have hlen2 : rest.length + (i + 1) = n := by
        simp only [List.length_cons] at hlen
        omega
      have ih := backSub_solves n rest (i + 1) htri2 hlen2
      have hunfold : backSubFrom n i (row :: rest)
          = (row.getD n 0 - dot (row.drop (i + 1)) (backSubFrom n (i + 1) rest))
              / row.getD i 0 :: backSubFrom n (i + 1) rest := rfl
      have hi_lt : i < row.length := by rw [hrowlen]; omega
      refine ⟨by rw [hunfold]; simp [ih.1], ?_⟩
      intro r hr
      rcases List.mem_cons.mp hr with rfl | hr
      · rw [hunfold, drop_eq_getD_cons hi_lt, dot_cons, mul_comm,
          div_mul_cancel₀ _ hnz, sub_add_cancel]
      · have hrlen : r.length = n + 1 := htri2.mem_length r hr
        have hri : i < r.length := by rw [hrlen]; omega
        rw [hunfold, drop_eq_getD_cons hri, dot_cons,
          htri2.mem_zero r hr i (by omega), zero_mul, zero_add]
        exact ih.2 r hr

/-! ### Correctness of the forward-elimination phase -/

theorem forwardElim_correct (n : ℕ) :
    ∀ (fuel : ℕ) (R : List (List ℚ)) (i : ℕ),
      fuel = R.length →
      (∀ row ∈ R, row.length = n + 1) →
      (∀ row ∈ R, ∀ j < i, row.getD j 0 = 0) →
      R.length + i = n →
      (∀ xs : List ℚ, xs.length = n → (∀ j < i, xs.getD j 0 = 0) →
        (∀ row ∈ R, dot row xs = 0) → ∀ j, xs.getD j 0 = 0) →
      Tri n i (forwardElimAux i fuel R) ∧
        ∀ xs : List ℚ,
          (∀ row ∈ forwardElimAux i fuel R, dot row xs = row.getD n 0) →
          ∀ row ∈ R, dot row xs = row.getD n 0
  | fuel, [], i, _, _, _, _, _ =>
      ⟨by cases fuel <;> exact Tri.nil i, by cases fuel <;> (intro xs _; simp)⟩
  | 0, r :: rs, i, hfuel, _, _, _, _ => by simp at hfuel
  | fuel + 1, r :: rs, i, hfuel, hsh, hz, hlen, huq => by
      have hfuel2 : fuel = rs.length := by simpa using hfuel
      have hunfold : forwardElimAux i (fuel + 1) (r :: rs)
          = (pivotAux i rs 1 (0, r)).2 :: forwardElimAux (i + 1) fuel
              ((((r :: rs).set (pivotAux i rs 1 (0, r)).1 r).tail).map
                (elimRow i (pivotAux i rs 1 (0, r)).2)) := rfl
      set best := pivotAux i rs 1 (0, r) with hbest
      obtain ⟨hplt, hpr_eq⟩ := pivotAux_getD i rs 1 (0, r) (r :: rs)
        (by omega) (by simp)
        (fun m hm => by rw [show 1 + m = m + 1 by omega, List.getD_cons_succ])
      rw [← hbest] at hplt hpr_eq
      have hperm : (best.2 :: ((r :: rs).set best.1 r).tail).Perm (r :: rs) := by
        have hswap := swap_cons_set r rs best.1 (by simp only [List.length_cons]; omega)
        rwa [hpr_eq] at hswap
      set rest := ((r :: rs).set best.1 r).tail with hrest
      have hpr_mem : best.2 ∈ r :: rs := hperm.subset (List.mem_cons_self _ _)
      have hprlen : best.2.length = n + 1 := hsh _ hpr_mem
      have hprz : ∀ j < i, best.2.getD j 0 = 0 := hz _ hpr_mem
      have hin : i < n := by
        simp only [List.length_cons] at hlen
        omega
      have hmax := pivotAux_max i rs 1 (0, r)
      have hmaxall : ∀ row ∈ r :: rs, |row.getD i 0| ≤ |best.2.getD i 0| := by
        intro row hrow
        rcases List.mem_cons.mp hrow with rfl | hrow
        · exact hmax.1
        · exact hmax.2 row hrow
      have hpiv : best.2.getD i 0 ≠ 0 := by
        intro h0
        have hall : ∀ row ∈ r :: rs, row.getD i 0 = 0 := by
          intro row hrow
          have habs := hmaxall row hrow
          rw [h0] at habs
          simpa using habs
        have helen : (List.replicate i (0 : ℚ) ++ 1 :: List.replicate (n - i - 1) 0).length
            = n := by
          simp only [List.length_append, List.length_replicate, List.length_cons]
          omega
        have hez : ∀ j < i,
            (List.replicate i (0 : ℚ) ++ 1 :: List.replicate (n - i - 1) 0).getD j 0 = 0 := by
          intro j hj
          rw [List.getD_append _ _ _ _ (by simpa using hj),
            getD_eq_getElem0 _ (by simpa using hj)]
          simp
        have hekill : ∀ row ∈ r :: rs,
            dot row (List.replicate i (0 : ℚ) ++ 1 :: List.replicate (n - i - 1) 0) = 0 := by
          intro row hrow
          rw [dot_indicator]
          exact hall row hrow
        have hzero := huq _ helen hez hekill i
        rw [List.getD_append_right _ _ _ _ (by simp)] at hzero
        simp at hzero
      have hrest_len : rest.length = rs.length := by
        rw [hrest]
        simp
      have hrest_sub : ∀ row ∈ rest, row ∈ r :: rs := by
        intro row hrow
        exact hperm.subset (List.mem_cons_of_mem _ hrow)
      have hsh2 : ∀ row ∈ rest.map (elimRow i best.2), row.length = n + 1 := by
        intro row hrow
        obtain ⟨row0, hrow0, rfl⟩ := List.mem_map.mp hrow
        rw [elimRow_length i _ _ (by rw [hsh row0 (hrest_sub row0 hrow0), hprlen])]
        exact hsh row0 (hrest_sub row0 hrow0)
      have hz2 : ∀ row ∈ rest.map (elimRow i best.2), ∀ j < i + 1, row.getD j 0 = 0 := by
        intro row hrow j hj
        obtain ⟨row0, hrow0, rfl⟩ := List.mem_map.mp hrow
        have hl0 : row0.length = n + 1 := hsh row0 (hrest_sub row0 hrow0)
        rcases Nat.lt_or_ge j i with hji | hji
        · rw [elimRow_getD_lt i _ _ (by rw [hl0]; omega) hji]
          exact hz row0 (hrest_sub row0 hrow0) j hji
        · have hji2 : j = i := by omega
          rw [hji2]
          exact elimRow_getD_pivot i _ _ (by rw [hl0]; omega) (by rw [hl0, hprlen]) hpiv
      have hlen2 : (rest.map (elimRow i best.2)).length + (i + 1) = n := by
        rw [List.length_map, hrest_len]
        simp only [List.length_cons] at hlen
        omega
      have huq2 : ∀ xs : List ℚ, xs.length = n → (∀ j < i + 1, xs.getD j 0 = 0) →
          (∀ row ∈ rest.map (elimRow i best.2), dot row xs = 0) →
          ∀ j, xs.getD j 0 = 0 := by
        intro xs hxlen hxz hkill
        have hxi : i < xs.length := by rw [hxlen]; exact hin
        have hxs2len : (xs.set i (-(dot best.2 xs) / best.2.getD i 0)).length = n := by
          rw [List.length_set, hxlen]
        have hxz2 : ∀ j < i,
            (xs.set i (-(dot best.2 xs) / best.2.getD i 0)).getD j 0 = 0 := by
          intro j hj
          rw [getD_eq_getElem0 _ (by rw [List.length_set]; omega),
            List.getElem_set_ne (by omega), ← getD_eq_getElem0 _ (by omega)]
          exact hxz j (by omega)
        have hdot_pr : dot best.2 (xs.set i (-(dot best.2 xs) / best.2.getD i 0)) = 0 := by
          rw [dot_set_right _ _ _ _ hxi, hxz i (by omega), sub_zero, mul_div_assoc',
            mul_div_cancel_left₀ _ hpiv]
          ring
        have hkill2 : ∀ row ∈ r :: rs,
            dot row (xs.set i (-(dot best.2 xs) / best.2.getD i 0)) = 0 := by
          intro row hrow
          have hrow2 : row ∈ best.2 :: rest := hperm.mem_iff.mpr hrow
          rcases List.mem_cons.mp hrow2 with rfl | hrow0
          · exact hdot_pr
          · have hl0 : row.length = n + 1 := hsh row (hrest_sub _ hrow0)
            have hro_kill : dot (elimRow i best.2 row) xs = 0 :=
              hkill _ (List.mem_map_of_mem _ hrow0)
            have h1 : dot (elimRow i best.2 row)
                (xs.set i (-(dot best.2 xs) / best.2.getD i 0)) = 0 := by
              rw [dot_set_right _ _ _ _ hxi,
                elimRow_getD_pivot i _ _ (by rw [hl0]; omega) (by rw [hl0, hprlen]) hpiv,
                zero_mul, add_zero, hro_kill]
            have h2 := dot_elimRow i best.2 row (by rw [hl0]; omega) (by rw [hl0, hprlen])
              (fun j hj => hz row (hrest_sub _ hrow0) j hj) hprz
              (xs.set i (-(dot best.2 xs) / best.2.getD i 0))
            rw [h1, hdot_pr, mul_zero, sub_zero] at h2
            exact h2.symm
        have hall0 := huq _ hxs2len hxz2 hkill2
        intro j
        rcases eq_or_ne j i with rfl | hne
        · exact hxz j (by omega)
        · rcases Nat.lt_or_ge j xs.length with hj | hj
          · have hthis := hall0 j
            rw [getD_eq_getElem0 _ (by rw [List.length_set]; exact hj),
              List.getElem_set_ne (by omega), ← getD_eq_getElem0 _ hj] at hthis
            exact hthis
          · exact List.getD_eq_default _ _ hj
      have ih := forwardElim_correct n fuel (rest.map (elimRow i best.2)) (i + 1)
        (by rw [List.length_map, hrest_len, hfuel2]) hsh2 hz2 hlen2 huq2
      constructor
      · rw [hunfold]
        exact Tri.cons i best.2 _ hprlen hprz hpiv ih.1
      · intro xs hxs
        rw [hunfold] at hxs
        have hpr_ok : dot best.2 xs = best.2.getD n 0 := hxs _ (List.mem_cons_self _ _)
        have hrs2_ok := ih.2 xs (fun row hrow => hxs _ (List.mem_cons_of_mem _ hrow))
        intro row hrow
        have hrow2 : row ∈ best.2 :: rest := hperm.mem_iff.mpr hrow
        rcases List.mem_cons.mp hrow2 with rfl | hrow0
        · exact hpr_ok
        · have hl0 : row.length = n + 1 := hsh row (hrest_sub _ hrow0)
          have he := dot_elimRow i best.2 row (by rw [hl0]; omega) (by rw [hl0, hprlen])
            (fun j hj => hz row (hrest_sub _ hrow0) j hj) hprz xs
          have hrow3 := hrs2_ok _ (List.mem_map_of_mem _ hrow0)
          rw [he, elimRow_getD_ge i _ _ (by omega) (by rw [hl0]; omega)
            (by rw [hl0, hprlen]), hpr_ok] at hrow3
          linarith [hrow3]

/-! ### Correctness of `gaussianElimination` on non-singular systems -/

theorem zipWith_append_getD : ∀ (A : List (List ℚ)) (b : List ℚ) (k : ℕ),
    k < A.length → k < b.length →
    (List.zipWith (fun row bi => row ++ [bi]) A b).getD k []
      = A.getD k [] ++ [b.getD k 0]
  | [], _, k, h, _ => absurd h (by simp)
  | _ :: _, [], k, _, h => absurd h (by simp)
  | r :: A, c :: b, 0, _, _ => rfl
  | r :: A, c :: b, k + 1, h1, h2 => by
      simp only [List.zipWith_cons_cons, List.getD_cons_succ]
      exact zipWith_append_getD A b k (by simpa using h1) (by simpa using h2)

theorem getD_mem_of_lt {α : Type*} (l : List α) (d : α) {k : ℕ} (h : k < l.length) :
    l.getD k d ∈ l := by
  rw [List.getD_eq_getElem l d h]
  exact List.getElem_mem _

theorem gaussianElimination_solves (A : List (List ℚ)) (b : List ℚ)
    (hA : ∀ row ∈ A, row.length = A.length) (hb : b.length = A.length)
    (huq : ∀ xs : List ℚ, xs.length = A.length →
      (∀ row ∈ A, dot row xs = 0) → ∀ j, xs.getD j 0 = 0) :
    (gaussianElimination A b).length = A.length ∧
      ∀ k < A.length, dot (A.getD k []) (gaussianElimination A b) = b.getD k 0 := by
  have haug_len : (List.zipWith (fun row bi => row ++ [bi]) A b).length = A.length := by
    simp [hb]
  have hAk_len : ∀ k < A.length, (A.getD k []).length = A.length := by
    intro k hk
    exact hA _ (getD_mem_of_lt A [] hk)
  have haug_mem : ∀ row ∈ List.zipWith (fun row bi => row ++ [bi]) A b,
      ∃ k, k < A.length ∧ row = A.getD k [] ++ [b.getD k 0] := by
    intro row hrow
    obtain ⟨k, hk, hrowk⟩ := List.mem_iff_getElem.mp hrow
    have hkA : k < A.length := by rw [← haug_len]; exact hk
    refine ⟨k, hkA, ?_⟩
    rw [← hrowk, ← List.getD_eq_getElem _ [] hk,
      zipWith_append_getD A b k hkA (by rw [hb]; exact hkA)]
  have hsh : ∀ row ∈ List.zipWith (fun row bi => row ++ [bi]) A b,
      row.length = A.length + 1 := by
    intro row hrow
    obtain ⟨k, hk, rfl⟩ := haug_mem row hrow
    rw [List.length_append, hAk_len k hk, List.length_cons, List.length_nil]
  have hz0 : ∀ row ∈ List.zipWith (fun row bi => row ++ [bi]) A b,
      ∀ j < 0, row.getD j 0 = 0 := by
    intro row _ j hj
    exact absurd hj (Nat.not_lt_zero j)
  have huq0 : ∀ xs : List ℚ, xs.length = A.length → (∀ j < 0, xs.getD j 0 = 0) →
      (∀ row ∈ List.zipWith (fun row bi => row ++ [bi]) A b, dot row xs = 0) →
      ∀ j, xs.getD j 0 = 0 := by
    intro xs hxs _ hkill
    apply huq xs hxs
    intro row hrow
    obtain ⟨k, hk, hrk⟩ := List.mem_iff_getElem.mp hrow
    have hthis := hkill _ (getD_mem_of_lt _ [] (by rw [haug_len]; exact hk))
    rw [zipWith_append_getD A b k hk (by rw [hb]; exact hk),
      dot_append_left_of_le _ _ _ (by rw [hAk_len k hk, hxs])] at hthis
    rw [← hrk, ← List.getD_eq_getElem A [] hk]
    exact hthis
  have hfwd := forwardElim_correct A.length A.length
    (List.zipWith (fun row bi => row ++ [bi]) A b) 0 haug_len.symm hsh hz0
    (by rw [haug_len]; omega) huq0
  have hF_len : (forwardElimAux 0 A.length
      (List.zipWith (fun row bi => row ++ [bi]) A b)).length = A.length := by
    rw [forwardElimAux_length, haug_len, min_self]
  have hbs := backSub_solves A.length
    (forwardElimAux 0 A.length (List.zipWith (fun row bi => row ++ [bi]) A b)) 0
    hfwd.1 (by rw [hF_len]; omega)
  have hge : gaussianElimination A b
      = backSubFrom A.length 0
          (forwardElimAux 0 A.length (List.zipWith (fun row bi => row ++ [bi]) A b)) :=
    rfl
  have hall : ∀ row ∈ List.zipWith (fun row bi => row ++ [bi]) A b,
      dot row (gaussianElimination A b) = row.getD A.length 0 := by
    rw [hge]
    apply hfwd.2
    intro row hrow
    have hd := hbs.2 row hrow
    rwa [List.drop_zero] at hd
  have hxs_len : (gaussianElimination A b).length = A.length := by
    rw [hge, hbs.1, hF_len]
  refine ⟨hxs_len, ?_⟩
  intro k hk
  have hthis := hall _ (getD_mem_of_lt _ [] (by rw [haug_len]; exact hk))
  rw [zipWith_append_getD A b k hk (by rw [hb]; exact hk),
    dot_append_left_of_le _ _ _ (by rw [hAk_len k hk, hxs_len]),
    List.getD_append_right _ _ _ _ (by rw [hAk_len k hk]),
    hAk_len k hk, Nat.sub_self, List.getD_cons_zero] at hthis
  exact hthis

/-! ### The normal equations of `polynomialRegression` -/

/-- The design matrix built by `polynomialRegression`: row `t` holds the
powers `x_t^0, …, x_t^deg` of the `t`-th sample. -/
def designMatrix (data : List DataPoint) (deg : ℕ) : List (List ℚ) :=
  data.map (fun p => (List.range (deg + 1)).map (fun j => p.x ^ j))

/-- The `x` value of the `t`-th sample (with a zero default). -/
def xAt (data : List DataPoint) (t : ℕ) : ℚ := (data.getD t ⟨0, 0⟩).x

/-- The `y` value of the `t`-th sample (with a zero default). -/
def yAt (data : List DataPoint) (t : ℕ) : ℚ := (data.getD t ⟨0, 0⟩).y

theorem polynomialRegression_eq_normal (data : List DataPoint) (degree : ℕ)
    (h : ¬ data.length < degree + 1) :
    polynomialRegression data degree
      = gaussianElimination
          (matrixMultiply (transpose (designMatrix data degree))
            (designMatrix data degree))
          (matrixVectorMultiply (transpose (designMatrix data degree))
            (data.map (fun p => p.y))) := by
  simp only [polynomialRegression, if_neg h, designMatrix]

theorem getD_map_rows (X : List (List ℚ)) (j : ℕ) {t : ℕ} (ht : t < X.length) :
    (X.map (fun row => row.getD j 0)).getD t 0 = (X.getD t []).getD j 0 := by
  rw [List.getD_eq_getElem _ 0 (by simpa using ht), List.getElem_map,
    List.getD_eq_getElem _ [] ht]

theorem getD_range_map_q (f : ℕ → ℚ) {j m : ℕ} (hj : j < m) :
    ((List.range m).map f).getD j 0 = f j := by
  rw [List.getD_eq_getElem _ 0 (by simpa using hj), List.getElem_map,
    List.getElem_range]

theorem getD_range_map_l (f : ℕ → List ℚ) {j m : ℕ} (hj : j < m) :
    ((List.range m).map f).getD j [] = f j := by
  rw [List.getD_eq_getElem _ [] (by simpa using hj), List.getElem_map,
    List.getElem_range]

theorem range_map_sum (f : ℕ → ℚ) : ∀ m : ℕ,
    ((List.range m).map f).sum = ∑ k ∈ Finset.range m, f k
  | 0 => by simp
  | m + 1 => by
      rw [List.range_succ, List.map_append, List.sum_append, Finset.sum_range_succ,
        range_map_sum f m]
      simp

theorem transpose_getD (m : List (List ℚ)) {j : ℕ} (hj : j < (m.headD []).length) :
    (transpose m).getD j [] = m.map (fun row => row.getD j 0) := by
  rw [transpose, getD_range_map_l _ hj]

theorem matrixMultiply_getD (A B : List (List ℚ)) {i : ℕ} (hi : i < A.length) :
    (matrixMultiply A B).getD i []
      = (List.range (B.headD []).length).map (fun j =>
          ((List.range (A.headD []).length).map
            (fun k => (A.getD i []).getD k 0 * (B.getD k []).getD j 0)).sum) := by
  rw [matrixMultiply, List.getD_eq_getElem _ [] (by simpa using hi),
    List.getElem_map, List.getD_eq_getElem _ [] hi]

theorem matrixVectorMultiply_getD (A : List (List ℚ)) (v : List ℚ) {i : ℕ}
    (hi : i < A.length) :
    (matrixVectorMultiply A v).getD i 0
      = ((List.range v.length).map
          (fun j => (A.getD i []).getD j 0 * v.getD j 0)).sum := by
  rw [matrixVectorMultiply, List.getD_eq_getElem _ 0 (by simpa using hi),
    List.getElem_map, List.getD_eq_getElem _ [] hi]

theorem designMatrix_length (data : List DataPoint) (deg : ℕ) :
    (designMatrix data deg).length = data.length := by
  simp [designMatrix]

theorem designMatrix_getD (data : List DataPoint) (deg : ℕ) {t : ℕ}
    (ht : t < data.length) :
    (designMatrix data deg).getD t []
      = (List.range (deg + 1)).map (fun j => xAt data t ^ j) := by
  rw [designMatrix, List.getD_eq_getElem _ [] (by simpa using ht),
    List.getElem_map, xAt, List.getD_eq_getElem _ _ ht]

theorem designMatrix_entry (data : List DataPoint) (deg : ℕ) {t j : ℕ}
    (ht : t < data.length) (hj : j < deg + 1) :
    ((designMatrix data deg).getD t []).getD j 0 = xAt data t ^ j := by
  rw [designMatrix_getD data deg ht, getD_range_map_q _ hj]

theorem designMatrix_headD_length (data : List DataPoint) (deg : ℕ)
    (hne : data ≠ []) :
    ((designMatrix data deg).headD []).length = deg + 1 := by
  obtain ⟨p, rest, rfl⟩ := List.exists_cons_of_ne_nil hne
  simp [designMatrix]

theorem transpose_designMatrix_length (data : List DataPoint) (deg : ℕ)
    (hne : data ≠ []) :
    (transpose (designMatrix data deg)).length = deg + 1 := by
  rw [transpose_length, designMatrix_headD_length data deg hne]

theorem transpose_designMatrix_headD_length (data : List DataPoint) (deg : ℕ)
    (hne : data ≠ []) :
    ((transpose (designMatrix data deg)).headD []).length = data.length := by
  have h0 : (transpose (designMatrix data deg)).headD []
      = (transpose (designMatrix data deg)).getD 0 [] := by
    cases htr : transpose (designMatrix data deg) with
    | nil =>
        have := transpose_designMatrix_length data deg hne
        rw [htr] at this
        simp at this
    | cons a l => rfl
  rw [h0, transpose_getD _ (by rw [designMatrix_headD_length data deg hne]; omega),
    List.length_map, designMatrix_length]

theorem XTX_getD (data : List DataPoint) (deg : ℕ) (hne : data ≠ [])
    {j : ℕ} (hj : j < deg + 1) :
    (matrixMultiply (transpose (designMatrix data deg))
        (designMatrix data deg)).getD j []
      = (List.range (deg + 1)).map (fun k =>
          ((List.range data.length).map (fun t =>
            ((transpose (designMatrix data deg)).getD j []).getD t 0
              * ((designMatrix data deg).getD t []).getD k 0)).sum) := by
  rw [matrixMultiply_getD _ _
      (by rw [transpose_designMatrix_length data deg hne]; exact hj),
    designMatrix_headD_length data deg hne,
    transpose_designMatrix_headD_length data deg hne]

theorem XT_entry (data : List DataPoint) (deg : ℕ) (hne : data ≠ [])
    {j t : ℕ} (hj : j < deg + 1) (ht : t < data.length) :
    ((transpose (designMatrix data deg)).getD j []).getD t 0 = xAt data t ^ j := by
  rw [transpose_getD _ (by rw [designMatrix_headD_length data deg hne]; exact hj),
    getD_map_rows _ _ (by rw [designMatrix_length]; exact ht),
    designMatrix_entry data deg ht hj]

theorem XTX_entry (data : List DataPoint) (deg : ℕ) (hne : data ≠ [])
    {j k : ℕ} (hj : j < deg + 1) (hk : k < deg + 1) :
    ((matrixMultiply (transpose (designMatrix data deg))
        (designMatrix data deg)).getD j []).getD k 0
      = ∑ t ∈ Finset.range data.length, xAt data t ^ j * xAt data t ^ k := by
  rw [XTX_getD data deg hne hj, getD_range_map_q _ hk, range_map_sum]
  refine Finset.sum_congr rfl ?_
  intro t ht
  rw [XT_entry data deg hne hj (Finset.mem_range.mp ht),
    designMatrix_entry data deg (Finset.mem_range.mp ht) hk]

theorem XTX_length (data : List DataPoint) (deg : ℕ) (hne : data ≠ []) :
    (matrixMultiply (transpose (designMatrix data deg))
      (designMatrix data deg)).length = deg + 1 := by
  rw [matrixMultiply_length, transpose_designMatrix_length data deg hne]

theorem XTX_row_length (data : List DataPoint) (deg : ℕ) (hne : data ≠ []) :
    ∀ row ∈ matrixMultiply (transpose (designMatrix data deg))
      (designMatrix data deg), row.length = deg + 1 := by
  intro row hrow
  obtain ⟨row0, _, rfl⟩ := List.mem_map.mp hrow
  rw [List.length_map, List.length_range, designMatrix_headD_length data deg hne]

theorem XTY_entry (data : List DataPoint) (deg : ℕ) (hne : data ≠ [])
    {j : ℕ} (hj : j < deg + 1) :
    (matrixVectorMultiply (transpose (designMatrix data deg))
        (data.map (fun p => p.y))).getD j 0
      = ∑ t ∈ Finset.range data.length, xAt data t ^ j * yAt data t := by
  rw [matrixVectorMultiply_getD _ _
      (by rw [transpose_designMatrix_length data deg hne]; exact hj),
    List.length_map, range_map_sum]
  refine Finset.sum_congr rfl ?_
  intro t ht
  have htN : t < data.length := Finset.mem_range.mp ht
  rw [XT_entry data deg hne hj htN, List.getD_eq_getElem _ 0 (by simpa using htN),
    List.getElem_map, yAt, List.getD_eq_getElem _ _ htN]

theorem dot_XTX_row (data : List DataPoint) (deg : ℕ) (hne : data ≠ [])
    {j : ℕ} (hj : j < deg + 1) (xs : List ℚ) (hxs : xs.length = deg + 1) :
    dot ((matrixMultiply (transpose (designMatrix data deg))
        (designMatrix data deg)).getD j []) xs
      = ∑ t ∈ Finset.range data.length,
          xAt data t ^ j * ∑ k ∈ Finset.range (deg + 1), xs.getD k 0 * xAt data t ^ k := by
  have hrowlen : ((matrixMultiply (transpose (designMatrix data deg))
      (designMatrix data deg)).getD j []).length = deg + 1 := by
    apply XTX_row_length data deg hne
    exact getD_mem_of_lt _ [] (by rw [XTX_length data deg hne]; exact hj)
  rw [dot_eq_sum_range, hrowlen, hxs, min_self]
  have hterm : ∀ k ∈ Finset.range (deg + 1),
      ((matrixMultiply (transpose (designMatrix data deg))
          (designMatrix data deg)).getD j []).getD k 0 * xs.getD k 0
        = ∑ t ∈ Finset.range data.length,
            xAt data t ^ j * (xs.getD k 0 * xAt data t ^ k) := by
    intro k hk
    rw [XTX_entry data deg hne hj (Finset.mem_range.mp hk), Finset.sum_mul]
    refine Finset.sum_congr rfl ?_
    intro t _
    ring
  rw [Finset.sum_congr rfl hterm, Finset.sum_comm]
  refine Finset.sum_congr rfl ?_
  intro t _
  rw [Finset.mul_sum]

/-- With pairwise-distinct `x` values and at least `deg + 1` samples, the
normal-equations matrix `XᵀX` has a trivial kernel: the classical Gram /
Vandermonde argument, carried out over `ℚ`. -/
theorem gram_injective (data : List DataPoint) (deg : ℕ)
    (hd : deg + 1 ≤ data.length)
    (hdist : (data.map (fun p => p.x)).Nodup) :
    ∀ xs : List ℚ,
      xs.length = (matrixMultiply (transpose (designMatrix data deg))
        (designMatrix data deg)).length →
      (∀ row ∈ matrixMultiply (transpose (designMatrix data deg))
        (designMatrix data deg), dot row xs = 0) →
      ∀ j, xs.getD j 0 = 0 := by
  have hne : data ≠ [] := by
    intro h
    rw [h] at hd
    simp at hd
  intro xs hxslen hkill
  rw [XTX_length data deg hne] at hxslen
  have hkill2 : ∀ j < deg + 1, ∑ t ∈ Finset.range data.length,
      xAt data t ^ j * ∑ k ∈ Finset.range (deg + 1), xs.getD k 0 * xAt data t ^ k
        = 0 := by
    intro j hj
    rw [← dot_XTX_row data deg hne hj xs hxslen]
    exact hkill _ (getD_mem_of_lt _ [] (by rw [XTX_length data deg hne]; exact hj))
  have hsq : ∑ t ∈ Finset.range data.length,
      (∑ k ∈ Finset.range (deg + 1), xs.getD k 0 * xAt data t ^ k) ^ 2 = 0 := by
    have hrw : ∀ t ∈ Finset.range data.length,
        (∑ k ∈ Finset.range (deg + 1), xs.getD k 0 * xAt data t ^ k) ^ 2
          = ∑ k ∈ Finset.range (deg + 1),
              xs.getD k 0 * (xAt data t ^ k *
                ∑ m ∈ Finset.range (deg + 1), xs.getD m 0 * xAt data t ^ m) := by
      intro t _
      rw [sq, Finset.sum_mul]
      refine Finset.sum_congr rfl ?_
      intro k _
      ring
    rw [Finset.sum_congr rfl hrw, Finset.sum_comm]
    refine Finset.sum_eq_zero ?_
    intro k hk
    rw [← Finset.mul_sum, hkill2 k (Finset.mem_range.mp hk), mul_zero]
  have hq0 : ∀ t < data.length,
      ∑ k ∈ Finset.range (deg + 1), xs.getD k 0 * xAt data t ^ k = 0 := by
    intro t ht
    have hz := (Finset.sum_eq_zero_iff_of_nonneg
      (fun t _ => sq_nonneg _)).mp hsq t (Finset.mem_range.mpr ht)
    exact (pow_eq_zero_iff two_ne_zero).mp hz
  have heval : ∀ a ∈ (data.map (fun p => p.x)).toFinset,
      (∑ k ∈ Finset.range (deg + 1),
        Polynomial.C (xs.getD k 0) * Polynomial.X ^ k).eval a = 0 := by
    intro a ha
    obtain ⟨t, ht, hta⟩ := List.mem_iff_getElem.mp (List.mem_toFinset.mp ha)
    have htN : t < data.length := by simpa using ht
    have hax : a = xAt data t := by
      rw [← hta, List.getElem_map, xAt, List.getD_eq_getElem _ _ htN]
    rw [hax, Polynomial.eval_finset_sum]
    simp only [Polynomial.eval_mul, Polynomial.eval_C, Polynomial.eval_pow,
      Polynomial.eval_X]
    exact hq0 t htN
  have hdeg : (∑ k ∈ Finset.range (deg + 1),
      Polynomial.C (xs.getD k 0) * Polynomial.X ^ k).natDegree
        < (data.map (fun p => p.x)).toFinset.card := by
    rw [List.toFinset_card_of_nodup hdist, List.length_map]
    have hbound : (∑ k ∈ Finset.range (deg + 1),
        Polynomial.C (xs.getD k 0) * Polynomial.X ^ k).natDegree ≤ deg := by
      refine Polynomial.natDegree_sum_le_of_forall_le _ _ ?_
      intro k hk
      refine le_trans (Polynomial.natDegree_C_mul_le _ _) ?_
      rw [Polynomial.natDegree_X_pow]
      exact Nat.lt_succ_iff.mp (Finset.mem_range.mp hk)
    omega
  have hPzero : (∑ k ∈ Finset.range (deg + 1),
      Polynomial.C (xs.getD k 0) * Polynomial.X ^ k) = 0 :=
    Polynomial.eq_zero_of_natDegree_lt_card_of_eval_eq_zero' _ _ heval hdeg
  intro j
  rcases Nat.lt_or_ge j (deg + 1) with hj | hj
  · have hcoeff : (∑ k ∈ Finset.range (deg + 1),
        Polynomial.C (xs.getD k 0) * Polynomial.X ^ k).coeff j = xs.getD j 0 := by
      rw [Polynomial.finset_sum_coeff]
      have hterm : ∀ k ∈ Finset.range (deg + 1),
          (Polynomial.C (xs.getD k 0) * Polynomial.X ^ k).coeff j
            = if k = j then xs.getD k 0 else 0 := by
        intro k _
        rw [Polynomial.coeff_C_mul, Polynomial.coeff_X_pow]
        rcases eq_or_ne k j with rfl | hkj
        · simp
        · simp [Ne.symm hkj, hkj]
      rw [Finset.sum_congr rfl hterm,
        Finset.sum_ite_eq' (Finset.range (deg + 1)) j (fun k => xs.getD k 0),
        if_pos (Finset.mem_range.mpr hj)]
    rw [← hcoeff, hPzero, Polynomial.coeff_zero]
  · exact List.getD_eq_default _ _ (by omega)

/-- C1 (amended): for every series with pairwise-distinct `x` values lying
exactly on a polynomial of degree `d ≤ n - 1` whose values at the sample
points are all non-negative (so the clamp in `predict` is inactive) and not
all equal, `polynomialRegression` recovers that polynomial's coefficients
exactly (over `ℚ` no tolerance is needed), and `calculateR2` returns `1`.
The non-negativity restriction is forced by the counterexample
`exact_fit_counterexample`; the not-all-equal restriction excludes the
zero-variance division of claim C6 (in the rational model `0 / 0 = 0` would
make the conclusion hold anyway, but in JavaScript that case yields `NaN`,
so the hypothesis keeps the theorem faithful to the code). -/
theorem exact_fit_recovers (data : List DataPoint) (d : ℕ) (c : List ℚ)
    (hc : c.length = d + 1) (hd : d + 1 ≤ data.length)
    (hdist : (data.map (fun p => p.x)).Nodup)
    (hfit : ∀ p ∈ data, p.y = polyVal c p.x)
    (hy : ∀ p ∈ data, 0 ≤ p.y)
    (hvar : ∃ p ∈ data, ∃ q ∈ data, p.y ≠ q.y) :
    polynomialRegression data d = c ∧
      calculateR2 data (polynomialRegression data d) = 1 := by
  have hne : data ≠ [] := by
    intro h
    rw [h] at hd
    simp at hd
  have hnotlt : ¬ data.length < d + 1 := by omega
  have hXTXlen := XTX_length data d hne
  have hXTYlen : (matrixVectorMultiply (transpose (designMatrix data d))
      (data.map (fun p => p.y))).length = d + 1 := by
    rw [matrixVectorMultiply_length, transpose_designMatrix_length data d hne]
  have hA : ∀ row ∈ matrixMultiply (transpose (designMatrix data d))
      (designMatrix data d),
      row.length = (matrixMultiply (transpose (designMatrix data d))
        (designMatrix data d)).length := by
    intro row hrow
    rw [hXTXlen]
    exact XTX_row_length data d hne row hrow
  have hsolve := gaussianElimination_solves
    (matrixMultiply (transpose (designMatrix data d)) (designMatrix data d))
    (matrixVectorMultiply (transpose (designMatrix data d))
      (data.map (fun p => p.y)))
    hA (by rw [hXTYlen, hXTXlen]) (gram_injective data d hd hdist)
  have hβlen : (gaussianElimination
      (matrixMultiply (transpose (designMatrix data d)) (designMatrix data d))
      (matrixVectorMultiply (transpose (designMatrix data d))
        (data.map (fun p => p.y)))).length = d + 1 := by
    rw [hsolve.1, hXTXlen]
  have hyAt : ∀ t < data.length,
      yAt data t = ∑ k ∈ Finset.range (d + 1), c.getD k 0 * xAt data t ^ k := by
    intro t ht
    have hmem : data.getD t ⟨0, 0⟩ ∈ data := getD_mem_of_lt data ⟨0, 0⟩ ht
    have hfp := hfit _ hmem
    rw [yAt, hfp, polyVal, hc, xAt]
  have hcsolve : ∀ j < d + 1,
      dot ((matrixMultiply (transpose (designMatrix data d))
        (designMatrix data d)).getD j []) c
      = (matrixVectorMultiply (transpose (designMatrix data d))
          (data.map (fun p => p.y))).getD j 0 := by
    intro j hj
    rw [dot_XTX_row data d hne hj c hc, XTY_entry data d hne hj]
    refine Finset.sum_congr rfl ?_
    intro t ht
    rw [hyAt t (Finset.mem_range.mp ht)]
  have hδ : ∀ j, (List.zipWith (fun a b => a - b)
      (gaussianElimination
        (matrixMultiply (transpose (designMatrix data d)) (designMatrix data d))
        (matrixVectorMultiply (transpose (designMatrix data d))
          (data.map (fun p => p.y)))) c).getD j 0 = 0 := by
    apply gram_injective data d hd hdist
    · rw [List.length_zipWith, hβlen, hc, min_self, hXTXlen]
    · intro row hrow
      obtain ⟨k, hkl, hrk⟩ := List.mem_iff_getElem.mp hrow
      rw [← hrk, ← List.getD_eq_getElem _ [] hkl,
        dot_sub_right _ _ _ (by rw [hβlen, hc]), hsolve.2 k hkl,
        hcsolve k (by rw [← hXTXlen]; exact hkl), sub_self]
  have hβc : gaussianElimination
      (matrixMultiply (transpose (designMatrix data d)) (designMatrix data d))
      (matrixVectorMultiply (transpose (designMatrix data d))
        (data.map (fun p => p.y))) = c := by
    apply List.ext_getElem (by rw [hβlen, hc])
    intro j h1 h2
    have hj1 : j < d + 1 := by rw [← hβlen]; exact h1
    have hdj := hδ j
    rw [getD_eq_getElem0 _
        (by rw [List.length_zipWith, hβlen, hc, min_self]; exact hj1),
      List.getElem_zipWith] at hdj
    exact sub_eq_zero.mp hdj
  have hpoly_eq : polynomialRegression data d = c := by
    rw [polynomialRegression_eq_normal data d hnotlt]
    exact hβc
  refine ⟨hpoly_eq, ?_⟩
  rw [hpoly_eq]
  have hres : ssResidual data c = 0 := by
    rw [ssResidual, foldl_add_map, zero_add]
    apply List.sum_eq_zero
    intro z hz
    obtain ⟨p, hp, rfl⟩ := List.mem_map.mp hz
    rw [predict_eq_max_polyVal, ← hfit p hp, max_eq_right (hy p hp), sub_self]
    norm_num
  rw [calculateR2, hres, zero_div, sub_zero]

/-- Witness for C1 (amended) at the series `[(0,1),(1,2)]`, which lies on the
polynomial `y = 1 + x` with coefficients `[1, 1]` and degree `1 = n - 1`. -/
theorem exact_fit_recovers_witness :
    (([1, 1] : List ℚ).length = 1 + 1 ∧
      1 + 1 ≤ ([⟨0, 1⟩, ⟨1, 2⟩] : List DataPoint).length ∧
      (([⟨0, 1⟩, ⟨1, 2⟩] : List DataPoint).map (fun p => p.x)).Nodup ∧
      (∀ p ∈ ([⟨0, 1⟩, ⟨1, 2⟩] : List DataPoint), p.y = polyVal [1, 1] p.x) ∧
      (∀ p ∈ ([⟨0, 1⟩, ⟨1, 2⟩] : List DataPoint), 0 ≤ p.y) ∧
      (∃ p ∈ ([⟨0, 1⟩, ⟨1, 2⟩] : List DataPoint),
        ∃ q ∈ ([⟨0, 1⟩, ⟨1, 2⟩] : List DataPoint), p.y ≠ q.y)) ∧
    polynomialRegression [⟨0, 1⟩, ⟨1, 2⟩] 1 = [1, 1] ∧
      calculateR2 [⟨0, 1⟩, ⟨1, 2⟩] (polynomialRegression [⟨0, 1⟩, ⟨1, 2⟩] 1) = 1 := by
  have hfit : ∀ p ∈ ([⟨0, 1⟩, ⟨1, 2⟩] : List DataPoint), p.y = polyVal [1, 1] p.x := by
    intro p hp
    rcases List.mem_cons.mp hp with rfl | hp
    · simp [polyVal, Finset.sum_range_succ]
    · rcases List.mem_cons.mp hp with rfl | hp
      · show (2 : ℚ) = polyVal [1, 1] 1
        have h2 : ([1, 1] : List ℚ).length = 1 + 1 := rfl
        rw [polyVal, h2, Finset.sum_range_succ, Finset.sum_range_succ,
          Finset.sum_range_zero]
        simp [one_add_one_eq_two]
      · simp at hp
  have hy : ∀ p ∈ ([⟨0, 1⟩, ⟨1, 2⟩] : List DataPoint), 0 ≤ p.y := by
    intro p hp
    rcases List.mem_cons.mp hp with rfl | hp
    · exact zero_le_one
    · rcases List.mem_cons.mp hp with rfl | hp
      · exact zero_le_two
      · simp at hp
  have hdist : (([⟨0, 1⟩, ⟨1, 2⟩] : List DataPoint).map (fun p => p.x)).Nodup := by
    simp
  have hvar : ∃ p ∈ ([⟨0, 1⟩, ⟨1, 2⟩] : List DataPoint),
      ∃ q ∈ ([⟨0, 1⟩, ⟨1, 2⟩] : List DataPoint), p.y ≠ q.y :=
    ⟨⟨0, 1⟩, by simp, ⟨1, 2⟩, by simp, OfNat.one_ne_ofNat 2⟩
  exact ⟨⟨rfl, by simp, hdist, hfit, hy, hvar⟩,
    exact_fit_recovers [⟨0, 1⟩, ⟨1, 2⟩] 1 [1, 1] rfl (by simp) hdist hfit hy hvar⟩

end FreelanceFlow
